import Mathlib

/-!
Verification of the K-map grid core of `src/app/page.tsx` (KMapSolver).

The definitions below are a shallow embedding of the grid-model code:
`graySequence`, `toBitsString`, the axis partition, `valueForMinterm`, and
the cell / overlay resolution performed inside the `KMapGrid` component.
JavaScript numbers are modelled as `Nat` (all quantities involved are
non-negative integers well below 2^53), JS arrays as `List`, and the
early `return null` guard of `KMapGrid` as an `Option` result.
-/

/-- An entry of `selectedImplicants` as consumed by `KMapGrid`:
a bit pattern string and the list of minterm indexes it covers. -/
structure Implicant where
  bits : String
  covered : List Nat
deriving DecidableEq, Inhabited

/-- The fixed highlight palette `GROUP_RING_CLASSES` of the source. -/
def GROUP_RING_CLASSES : List String :=
  ["ring-2 ring-emerald-400/70",
   "ring-2 ring-sky-400/70",
   "ring-2 ring-violet-400/70",
   "ring-2 ring-amber-400/70",
   "ring-2 ring-rose-400/70"]

/-- The loop body of `graySequence`: element `i` is `i ^ (i >> 1)`. -/
def grayCode (i : Nat) : Nat := i ^^^ (i >>> 1)

/-- Model of the JS expression `1 << bits`: the shift operator works on
signed 32-bit integers, so the shift count is reduced mod 32 and the
result is read back as a signed 32-bit value (`1 << 31` is the
negative number -2^31, `1 << 32` is 1). -/
def jsOneShl (bits : Nat) : Int :=
  if (1 <<< (bits % 32)) % 2 ^ 32 < 2 ^ 31
  then ((1 <<< (bits % 32)) % 2 ^ 32 : Nat)
  else ((1 <<< (bits % 32)) % 2 ^ 32 : Nat) - 2 ^ 32

/-- Embedding of `graySequence(bits)`: `[0]` when `bits <= 0` (on `Nat`,
when `bits = 0`), otherwise the list of `i ^ (i >> 1)` for `i` in
`[0, len)` with `len = 1 << bits` as a signed 32-bit value — the loop
runs `len.toNat` times, so not at all when `len` is negative (at
`bits = 31` the sequence is empty). Every reachable `i` is below 2^30,
where the Nat operations in `grayCode` agree with the JS 32-bit
`i ^ (i >> 1)`. -/
def graySequence (bits : Nat) : List Nat :=
  if bits = 0 then [0]
  else (List.range (jsOneShl bits).toNat).map grayCode

/-- Fuel-driven binary digit extraction, most significant digit first.
`natToBinFuel fuel m` computes the digits of `m` provided `m ≤ fuel`;
the fuel only makes the JS recursion `m -> m / 2` structurally
terminating and does not change the result (see `natToBinFuel_congr`). -/
def natToBinFuel : Nat → Nat → List Char
  | 0, _ => []
  | fuel + 1, m =>
    if m = 0 then []
    else natToBinFuel fuel (m / 2) ++ [if m % 2 = 1 then '1' else '0']

/-- Binary digits of `m`, most significant first; empty for `m = 0`. -/
def natToBin (m : Nat) : List Char := natToBinFuel m m

/-- Model of JS `n.toString(2)` for a non-negative integer `n`:
the binary digits without leading zeros, and `"0"` for zero. -/
def jsBinString (n : Nat) : String := if n = 0 then "0" else ⟨natToBin n⟩

/-- Model of JS `s.padStart(width, c)`: pad on the left up to `width`;
a string already at least `width` long is returned unchanged. -/
def padStart (s : String) (width : Nat) (c : Char) : String :=
  ⟨List.replicate (width - s.data.length) c ++ s.data⟩

/-- Embedding of `toBitsString(n, width)`:
`n.toString(2).padStart(width, '0')`. -/
def toBitsString (n width : Nat) : String := padStart (jsBinString n) width '0'

/-- Embedding of `valueForMinterm` (closure inside `KMapGrid`):
'1' when the index is listed in `minterms`, else 'X' when listed in
`dontCares`, else '0'. -/
def valueForMinterm (minterms dontCares : List Nat) (m : Nat) : Char :=
  if m ∈ minterms then '1' else if m ∈ dontCares then 'X' else '0'

/-- The `coveringGroups` computation of a cell:
`implicants.filter((imp) => imp.covered.includes(minterm))`. -/
def coveringGroupsFor (implicants : List Implicant) (minterm : Nat) : List Implicant :=
  implicants.filter fun imp => minterm ∈ imp.covered

/-- The `firstGroupIndex` computation of a cell: the index (via
`implicants.indexOf`) of the first covering group, `-1` when none. -/
def firstGroupIndexFor (implicants : List Implicant) (minterm : Nat) : Int :=
  match coveringGroupsFor implicants minterm with
  | [] => -1
  | g :: _ => (implicants.indexOf g : Int)

/-- The `groupRingClass` computation of a cell: the palette entry at
`firstGroupIndex % GROUP_RING_CLASSES.length`, or `""` when no group
covers the cell. -/
def groupRingClassFor (implicants : List Implicant) (minterm : Nat) : String :=
  if 0 ≤ firstGroupIndexFor implicants minterm then
    GROUP_RING_CLASSES.getD
      ((firstGroupIndexFor implicants minterm % (GROUP_RING_CLASSES.length : Int)).toNat) ""
  else ""

/-- The data computed for one grid cell inside `KMapGrid`:
its minterm index, displayed value, covering groups, highlight ring
class and tooltip bit string. -/
structure KMapCell where
  mintermIndex : Nat
  value : Char
  coveringGroups : List Implicant
  groupRingClass : String
  bitString : String
deriving DecidableEq, Inhabited

/-- Resolution of one cell of the grid, for row Gray value `rg` and
column Gray value `cg`: `minterm = (rg << colVars) | cg` and the
derived per-cell data. -/
def resolveCell (implicants : List Implicant) (minterms dontCares : List Nat)
    (numInputs colVars rg cg : Nat) : KMapCell :=
  let minterm := (rg <<< colVars) ||| cg
  { mintermIndex := minterm
    value := valueForMinterm minterms dontCares minterm
    coveringGroups := coveringGroupsFor implicants minterm
    groupRingClass := groupRingClassFor implicants minterm
    bitString := toBitsString minterm numInputs }

/-- Axis partition of `KMapGrid`: `rowVars = Math.floor(numInputs / 2)`. -/
def rowVarsOf (numInputs : Nat) : Nat := numInputs / 2

/-- Axis partition of `KMapGrid`: `colVars = numInputs - rowVars`. -/
def colVarsOf (numInputs : Nat) : Nat := numInputs - rowVarsOf numInputs

/-- Grid dimensions of `KMapGrid`: `rows = 1 << rowVars`. -/
def rowsOf (numInputs : Nat) : Nat := 1 <<< rowVarsOf numInputs

/-- Grid dimensions of `KMapGrid`: `cols = 1 << colVars`. -/
def colsOf (numInputs : Nat) : Nat := 1 <<< colVarsOf numInputs

/-- The fixed variable alphabet `['A', 'B', 'C', 'D', 'E', 'F']`. -/
def ALL_VARS : List String := ["A", "B", "C", "D", "E", "F"]

/-- `allVars = ['A', ..., 'F'].slice(0, numInputs)`. -/
def allVarsOf (numInputs : Nat) : List String := ALL_VARS.take numInputs

/-- `rowLabelsVars = allVars.slice(0, rowVars)`. -/
def rowLabelsVars (numInputs : Nat) : List String :=
  (allVarsOf numInputs).take (rowVarsOf numInputs)

/-- `colLabelsVars = allVars.slice(rowVars)`. -/
def colLabelsVars (numInputs : Nat) : List String :=
  (allVarsOf numInputs).drop (rowVarsOf numInputs)

/-- The full cell grid of `KMapGrid`, iterating rows in Gray order and,
within each row, columns in Gray order. -/
def kmapCells (numInputs : Nat) (minterms dontCares : List Nat)
    (implicants : List Implicant) : List KMapCell :=
  (graySequence (rowVarsOf numInputs)).flatMap fun rg =>
    (graySequence (colVarsOf numInputs)).map fun cg =>
      resolveCell implicants minterms dontCares numInputs (colVarsOf numInputs) rg cg

/-- Embedding of the `KMapGrid` component result: `none` models the
early `return null` for `numInputs` outside `[2, 6]`; otherwise the
resolved grid of cells. -/
def KMapGrid (numInputs : Nat) (minterms dontCares : List Nat)
    (implicants : List Implicant) : Option (List KMapCell) :=
  if numInputs < 2 ∨ 6 < numInputs then none
  else some (kmapCells numInputs minterms dontCares implicants)

/-- The sequence of minterm indexes of the grid, in cell order. -/
def mintermIndexes (numInputs : Nat) : List Nat :=
  (graySequence (rowVarsOf numInputs)).flatMap fun rg =>
    (graySequence (colVarsOf numInputs)).map fun cg =>
      (rg <<< colVarsOf numInputs) ||| cg

/-- Spec-side characterization of a cell covering list as index
positions: the indexes `i` (ascending) with `minterm ∈ implicants[i].covered`. -/
def coveringIndexesSpec (implicants : List Implicant) (minterm : Nat) : List Nat :=
  (List.range implicants.length).filter fun i =>
    minterm ∈ (implicants.getD i default).covered

/-- Two numbers differ in exactly one bit: their xor is a power of two. -/
def oneBitDiff (a b : Nat) : Prop := ∃ j, a ^^^ b = 2 ^ j

/-- Spec-side rendering of an index as `width` binary characters, most
significant bit first: character `j` (from the left) shows bit
`width - 1 - j`. -/
def binStringSpec (width m : Nat) : List Char :=
  (List.range width).map fun j => if m.testBit (width - 1 - j) then '1' else '0'

example : graySequence 2 = [0, 1, 3, 2] := by decide
example : toBitsString 5 4 = "0101" := by decide
example : mintermIndexes 3 = [0, 1, 3, 2, 4, 5, 7, 6] := by decide

/-! ### Structural lemmas about the grid -/

theorem resolveCell_mintermIndex (imps : List Implicant) (ms dcs : List Nat)
    (n cv rg cg : Nat) :
    (resolveCell imps ms dcs n cv rg cg).mintermIndex = (rg <<< cv) ||| cg := rfl

theorem resolveCell_value (imps : List Implicant) (ms dcs : List Nat)
    (n cv rg cg : Nat) :
    (resolveCell imps ms dcs n cv rg cg).value =
      valueForMinterm ms dcs ((rg <<< cv) ||| cg) := rfl

theorem resolveCell_coveringGroups (imps : List Implicant) (ms dcs : List Nat)
    (n cv rg cg : Nat) :
    (resolveCell imps ms dcs n cv rg cg).coveringGroups =
      coveringGroupsFor imps ((rg <<< cv) ||| cg) := rfl

theorem resolveCell_groupRingClass (imps : List Implicant) (ms dcs : List Nat)
    (n cv rg cg : Nat) :
    (resolveCell imps ms dcs n cv rg cg).groupRingClass =
      groupRingClassFor imps ((rg <<< cv) ||| cg) := rfl

theorem resolveCell_bitString (imps : List Implicant) (ms dcs : List Nat)
    (n cv rg cg : Nat) :
    (resolveCell imps ms dcs n cv rg cg).bitString =
      toBitsString ((rg <<< cv) ||| cg) n := rfl

theorem mem_kmapCells {n : Nat} {ms dcs : List Nat} {imps : List Implicant}
    {cell : KMapCell} :
    cell ∈ kmapCells n ms dcs imps ↔
      ∃ rg ∈ graySequence (rowVarsOf n), ∃ cg ∈ graySequence (colVarsOf n),
        cell = resolveCell imps ms dcs n (colVarsOf n) rg cg := by
  simp only [kmapCells, List.mem_flatMap, List.mem_map]
  constructor
  · rintro ⟨rg, hrg, cg, hcg, rfl⟩
    exact ⟨rg, hrg, cg, hcg, rfl⟩
  · rintro ⟨rg, hrg, cg, hcg, rfl⟩
    exact ⟨rg, hrg, cg, hcg, rfl⟩

theorem map_mintermIndex_kmapCells (n : Nat) (ms dcs : List Nat)
    (imps : List Implicant) :
    (kmapCells n ms dcs imps).map KMapCell.mintermIndex = mintermIndexes n := by
  simp only [kmapCells, mintermIndexes, List.map_flatMap, List.map_map]
  rfl

/-! ### C7: axis partition -/

/-- C7: for every numInputs in [2,6] the axis partition satisfies
rowVars = floor(n/2), colVars = n - rowVars, rows = 2^rowVars,
cols = 2^colVars, rowVars + colVars = n and rows * cols = 2^n; the
variable names are the first rowVars letters of A..F on the row axis
and the remaining colVars letters on the column axis. -/
theorem axis_partition_spec (n : Nat) (h2 : 2 ≤ n) (h6 : n ≤ 6) :
    rowVarsOf n = n / 2 ∧ colVarsOf n = n - n / 2 ∧
    rowVarsOf n + colVarsOf n = n ∧
    rowsOf n = 2 ^ rowVarsOf n ∧ colsOf n = 2 ^ colVarsOf n ∧
    rowsOf n * colsOf n = 2 ^ n ∧
    rowLabelsVars n = (ALL_VARS.take n).take (n / 2) ∧
    colLabelsVars n = (ALL_VARS.take n).drop (n / 2) ∧
    rowLabelsVars n ++ colLabelsVars n = ALL_VARS.take n ∧
    (rowLabelsVars n).length = rowVarsOf n ∧
    (colLabelsVars n).length = colVarsOf n := by
  interval_cases n <;> decide

/-- Witness for C7 at n = 5. -/
theorem axis_partition_spec_witness :
    rowVarsOf 5 = 5 / 2 ∧ colVarsOf 5 = 5 - 5 / 2 ∧
    rowVarsOf 5 + colVarsOf 5 = 5 ∧
    rowsOf 5 = 2 ^ rowVarsOf 5 ∧ colsOf 5 = 2 ^ colVarsOf 5 ∧
    rowsOf 5 * colsOf 5 = 2 ^ 5 ∧
    rowLabelsVars 5 = (ALL_VARS.take 5).take (5 / 2) ∧
    colLabelsVars 5 = (ALL_VARS.take 5).drop (5 / 2) ∧
    rowLabelsVars 5 ++ colLabelsVars 5 = ALL_VARS.take 5 ∧
    (rowLabelsVars 5).length = rowVarsOf 5 ∧
    (colLabelsVars 5).length = colVarsOf 5 :=
  axis_partition_spec 5 (by decide) (by decide)

/-! ### C8: rejection outside [2, 6] -/

/-- C8: for every numInputs outside [2,6] the component returns before
any grid computation: the result is `none` (the `return null` branch),
so no grid is produced. -/
theorem kmapgrid_rejects_out_of_range (n : Nat) (ms dcs : List Nat)
    (imps : List Implicant) (h : n < 2 ∨ 6 < n) :
    KMapGrid n ms dcs imps = none := by
  simp only [KMapGrid, if_pos h]

/-- Witness for C8 at n = 7. -/
theorem kmapgrid_rejects_out_of_range_witness :
    KMapGrid 7 [] [] [] = none :=
  kmapgrid_rejects_out_of_range 7 [] [] [] (by decide)

/-! ### C10: precedence of the on-set over the dont-care set -/

/-- C10: when a minterm index is listed both in `minterms` and in
`dontCares`, the cell is classified '1' (on): membership in `minterms`
is tested first. -/
theorem on_beats_dontcare (n : Nat) (ms dcs : List Nat) (imps : List Implicant)
    (cell : KMapCell) (hcell : cell ∈ kmapCells n ms dcs imps)
    (hon : cell.mintermIndex ∈ ms) (hdc : cell.mintermIndex ∈ dcs) :
    cell.value = '1' := by
  rcases mem_kmapCells.mp hcell with ⟨rg, _, cg, _, rfl⟩
  rw [resolveCell_value]
  rw [resolveCell_mintermIndex] at hon
  simp only [valueForMinterm, if_pos hon]

/-- Witness for C10: n = 2, minterm 0 both on and dont-care. -/
theorem on_beats_dontcare_witness :
    (⟨0, '1', [], "", "00"⟩ : KMapCell).value = '1' :=
  on_beats_dontcare 2 [0] [0] [] ⟨0, '1', [], "", "00"⟩
    (by decide) (by decide) (by decide)

/-! ### C2: cell classification -/

/-- C2: for every cell of the resolved grid, under the precondition that
the on-set and the dont-care set are disjoint subsets of [0, 2^n), the
value is '1' (on) iff the minterm index is in the on-set, 'X'
(dont-care) iff it is in the dont-care set and not in the on-set, and
'0' (off) when it is in neither. -/
theorem cell_classification (n : Nat) (ms dcs : List Nat) (imps : List Implicant)
    (cell : KMapCell)
    (hms : ∀ x ∈ ms, x < 2 ^ n) (hdcs : ∀ x ∈ dcs, x < 2 ^ n)
    (hdisj : ∀ x ∈ ms, x ∉ dcs)
    (hcell : cell ∈ kmapCells n ms dcs imps) :
    (cell.value = '1' ↔ cell.mintermIndex ∈ ms) ∧
    (cell.value = 'X' ↔ (cell.mintermIndex ∈ dcs ∧ cell.mintermIndex ∉ ms)) ∧
    (cell.mintermIndex ∉ ms → cell.mintermIndex ∉ dcs → cell.value = '0') := by
  rcases mem_kmapCells.mp hcell with ⟨rg, _, cg, _, rfl⟩
  rw [resolveCell_value, resolveCell_mintermIndex]
  unfold valueForMinterm
  by_cases hon : (rg <<< colVarsOf n) ||| cg ∈ ms <;>
    by_cases hdc : (rg <<< colVarsOf n) ||| cg ∈ dcs <;>
      simp [hon, hdc]

/-- Witness for C2: n = 2, on-set {0, 3}, dont-care set {1}, at the
first cell of the grid (minterm 0). -/
theorem cell_classification_witness :
    ((⟨0, '1', [], "", "00"⟩ : KMapCell).value = '1' ↔
      (⟨0, '1', [], "", "00"⟩ : KMapCell).mintermIndex ∈ [0, 3]) ∧
    ((⟨0, '1', [], "", "00"⟩ : KMapCell).value = 'X' ↔
      ((⟨0, '1', [], "", "00"⟩ : KMapCell).mintermIndex ∈ [1] ∧
       (⟨0, '1', [], "", "00"⟩ : KMapCell).mintermIndex ∉ [0, 3])) ∧
    ((⟨0, '1', [], "", "00"⟩ : KMapCell).mintermIndex ∉ [0, 3] →
     (⟨0, '1', [], "", "00"⟩ : KMapCell).mintermIndex ∉ [1] →
     (⟨0, '1', [], "", "00"⟩ : KMapCell).value = '0') :=
  cell_classification 2 [0, 3] [1] [] ⟨0, '1', [], "", "00"⟩
    (by decide) (by decide) (by decide) (by decide)

/-! ### C1: the minterm index enumeration is a bijection onto [0, 2^n) -/

/-- C1: for every numInputs in [2,6], enumerating the resolved grid
yields every integer in [0, 2^n) as mintermIndex exactly once (the
left-shift-and-or combination of the two Gray sequences is a bijection
onto [0, 2^n)). -/
theorem minterm_indexes_bijection (n : Nat) (ms dcs : List Nat)
    (imps : List Implicant) (h2 : 2 ≤ n) (h6 : n ≤ 6)
    (m : Nat) (hm : m < 2 ^ n) :
    List.count m ((kmapCells n ms dcs imps).map KMapCell.mintermIndex) = 1 := by
  rw [map_mintermIndex_kmapCells]
  revert hm
  revert m
  interval_cases n <;> decide

/-- Witness for C1 at n = 4, m = 7. -/
theorem minterm_indexes_bijection_witness :
    List.count 7 ((kmapCells 4 [] [] []).map KMapCell.mintermIndex) = 1 :=
  minterm_indexes_bijection 4 [] [] [] (by decide) (by decide) 7 (by decide)

/-! ### C3: covering implicants of a cell -/

theorem filter_eq_map_getD_filter_range {α : Type} [Inhabited α]
    (l : List α) (p : α → Bool) :
    l.filter p =
      ((List.range l.length).filter fun i => p (l.getD i default)).map
        fun i => l.getD i default := by
  induction l with
  | nil => rfl
  | cons a t ih =>
    rw [List.length_cons, List.range_succ_eq_map, List.filter_cons,
      List.filter_cons]
    rw [List.filter_map]
    have hc1 : ((fun i => p ((a :: t).getD i default)) ∘ Nat.succ)
        = fun i => p (t.getD i default) := funext fun i => rfl
    rw [hc1]
    cases hpa : p a <;>
      simp [List.getD_cons_zero, hpa, List.map_map, Function.comp,
        List.getD_cons_succ, ih]

theorem mem_coveringIndexesSpec {imps : List Implicant} {m i : Nat} :
    i ∈ coveringIndexesSpec imps m ↔
      i < imps.length ∧ m ∈ (imps.getD i default).covered := by
  simp [coveringIndexesSpec, List.mem_filter, List.mem_range]

theorem coveringIndexesSpec_pairwise (imps : List Implicant) (m : Nat) :
    List.Pairwise (· < ·) (coveringIndexesSpec imps m) :=
  List.Pairwise.filter _ (List.pairwise_lt_range _)

/-- C3: for every cell, the covering list equals the order-preserving
sub-sequence of the input implicants whose covered list contains the
cell minterm index: it is the filter of the input list, and equals the
image of the ascending index list `coveringIndexesSpec` (all covering
implicants are retained). -/
theorem covering_groups_spec (n : Nat) (ms dcs : List Nat) (imps : List Implicant)
    (cell : KMapCell) (hcell : cell ∈ kmapCells n ms dcs imps) :
    cell.coveringGroups = imps.filter (fun imp => cell.mintermIndex ∈ imp.covered) ∧
    cell.coveringGroups =
      (coveringIndexesSpec imps cell.mintermIndex).map (fun i => imps.getD i default) ∧
    List.Pairwise (· < ·) (coveringIndexesSpec imps cell.mintermIndex) := by
  rcases mem_kmapCells.mp hcell with ⟨rg, _, cg, _, rfl⟩
  rw [resolveCell_coveringGroups, resolveCell_mintermIndex]
  refine ⟨rfl, ?_, coveringIndexesSpec_pairwise imps _⟩
  exact filter_eq_map_getD_filter_range imps _

/-- Witness for C3: n = 2, two implicants both covering minterm 0, at
the first cell of the grid. -/
theorem covering_groups_spec_witness :
    (⟨0, '1', [⟨"0-", [0, 1]⟩, ⟨"-0", [0, 2]⟩], "ring-2 ring-emerald-400/70", "00"⟩
        : KMapCell).coveringGroups =
      ([⟨"0-", [0, 1]⟩, ⟨"-0", [0, 2]⟩] : List Implicant).filter
        (fun imp =>
          (⟨0, '1', [⟨"0-", [0, 1]⟩, ⟨"-0", [0, 2]⟩], "ring-2 ring-emerald-400/70",
            "00"⟩ : KMapCell).mintermIndex ∈ imp.covered) ∧
    (⟨0, '1', [⟨"0-", [0, 1]⟩, ⟨"-0", [0, 2]⟩], "ring-2 ring-emerald-400/70", "00"⟩
        : KMapCell).coveringGroups =
      (coveringIndexesSpec [⟨"0-", [0, 1]⟩, ⟨"-0", [0, 2]⟩]
          (⟨0, '1', [⟨"0-", [0, 1]⟩, ⟨"-0", [0, 2]⟩], "ring-2 ring-emerald-400/70",
            "00"⟩ : KMapCell).mintermIndex).map
        (fun i => ([⟨"0-", [0, 1]⟩, ⟨"-0", [0, 2]⟩] : List Implicant).getD i default) ∧
    List.Pairwise (· < ·)
      (coveringIndexesSpec [⟨"0-", [0, 1]⟩, ⟨"-0", [0, 2]⟩]
        (⟨0, '1', [⟨"0-", [0, 1]⟩, ⟨"-0", [0, 2]⟩], "ring-2 ring-emerald-400/70",
          "00"⟩ : KMapCell).mintermIndex) :=
  covering_groups_spec 2 [0, 1, 2] [] [⟨"0-", [0, 1]⟩, ⟨"-0", [0, 2]⟩]
    ⟨0, '1', [⟨"0-", [0, 1]⟩, ⟨"-0", [0, 2]⟩], "ring-2 ring-emerald-400/70", "00"⟩
    (by decide)

/-! ### C6: primary implicant and highlight color -/

theorem coveringGroupsFor_eq_map (imps : List Implicant) (m : Nat) :
    coveringGroupsFor imps m =
      (coveringIndexesSpec imps m).map fun i => imps.getD i default :=
  filter_eq_map_getD_filter_range imps _

theorem firstGroupIndexFor_eq_neg_one {imps : List Implicant} {m : Nat}
    (h : coveringGroupsFor imps m = []) : firstGroupIndexFor imps m = -1 := by
  rw [firstGroupIndexFor, h]

theorem firstGroupIndexFor_eq_indexOf {imps : List Implicant} {m : Nat}
    {g : Implicant} {rest : List Implicant}
    (h : coveringGroupsFor imps m = g :: rest) :
    firstGroupIndexFor imps m = (imps.indexOf g : Int) := by
  rw [firstGroupIndexFor, h]

theorem indexOf_getD_of_min {α : Type} [Inhabited α] [DecidableEq α] :
    ∀ (l : List α) (i : Nat), i < l.length →
      (∀ j, j < i → l.getD j default ≠ l.getD i default) →
      l.indexOf (l.getD i default) = i := by
  intro l
  induction l with
  | nil => intro i hi; simp at hi
  | cons a t ih =>
    intro i hi hmin
    cases i with
    | zero => simp [List.indexOf_cons, List.getD_cons_zero]
    | succ i' =>
      have ha : a ≠ (a :: t).getD (i' + 1) default := by
        have := hmin 0 (Nat.succ_pos i')
        simpa [List.getD_cons_zero] using this
      rw [List.getD_cons_succ] at ha ⊢
      rw [List.indexOf_cons]
      have hbeq : (a == t.getD i' default) = false := by
        simpa [beq_iff_eq] using ha
      rw [hbeq]
      simp only [cond_false]
      have hlen : i' < t.length := by
        simpa [List.length_cons, Nat.succ_lt_succ_iff] using hi
      have hmin' : ∀ j, j < i' → t.getD j default ≠ t.getD i' default := by
        intro j hj
        have := hmin (j + 1) (by omega)
        simpa [List.getD_cons_succ] using this
      rw [ih i' hlen hmin']

/-- C6: for every cell, the primary implicant is the first element of
the covering sub-sequence (no highlight class when that sub-sequence
is empty), and the highlight class is the palette entry at the primary
implicant position in the full input list modulo the palette size, so
implicant counts beyond the palette size reuse colors. -/
theorem primary_highlight_spec (n : Nat) (ms dcs : List Nat) (imps : List Implicant)
    (cell : KMapCell) (hcell : cell ∈ kmapCells n ms dcs imps) :
    (cell.coveringGroups = [] → cell.groupRingClass = "") ∧
    (cell.coveringGroups ≠ [] →
      cell.coveringGroups.head? =
        some (imps.getD ((coveringIndexesSpec imps cell.mintermIndex).headD 0) default) ∧
      cell.groupRingClass =
        GROUP_RING_CLASSES.getD
          (((coveringIndexesSpec imps cell.mintermIndex).headD 0) %
            GROUP_RING_CLASSES.length) "") := by
  rcases mem_kmapCells.mp hcell with ⟨rg, _, cg, _, rfl⟩
  rw [resolveCell_coveringGroups, resolveCell_groupRingClass, resolveCell_mintermIndex]
  rcases h : coveringIndexesSpec imps ((rg <<< colVarsOf n) ||| cg) with _ | ⟨i, irest⟩
  · have hcov : coveringGroupsFor imps ((rg <<< colVarsOf n) ||| cg) = [] := by
      rw [coveringGroupsFor_eq_map, h]; rfl
    refine ⟨fun _ => ?_, fun hne => absurd hcov hne⟩
    rw [groupRingClassFor, firstGroupIndexFor_eq_neg_one hcov]
    simp
  · have hcov : coveringGroupsFor imps ((rg <<< colVarsOf n) ||| cg) =
        imps.getD i default :: irest.map fun j => imps.getD j default := by
      rw [coveringGroupsFor_eq_map, h]; rfl
    have hi_mem : i ∈ coveringIndexesSpec imps ((rg <<< colVarsOf n) ||| cg) := by
      rw [h]; exact List.mem_cons_self i irest
    have hi_spec := mem_coveringIndexesSpec.mp hi_mem
    have hmin : ∀ j, j < i → imps.getD j default ≠ imps.getD i default := by
      intro j hj heq
      have hjmem : j ∈ coveringIndexesSpec imps ((rg <<< colVarsOf n) ||| cg) :=
        mem_coveringIndexesSpec.mpr ⟨by omega, heq ▸ hi_spec.2⟩
      rw [h] at hjmem
      rcases List.mem_cons.mp hjmem with rfl | hjrest
      · omega
      · have hpw := coveringIndexesSpec_pairwise imps ((rg <<< colVarsOf n) ||| cg)
        rw [h] at hpw
        have := (List.pairwise_cons.mp hpw).1 j hjrest
        omega
    have hidx : imps.indexOf (imps.getD i default) = i :=
      indexOf_getD_of_min imps i hi_spec.1 hmin
    refine ⟨fun h0 => ?_, fun _ => ⟨?_, ?_⟩⟩
    · rw [hcov] at h0; exact absurd h0 (List.cons_ne_nil _ _)
    · rw [hcov]; rfl
    · rw [groupRingClassFor, firstGroupIndexFor_eq_indexOf hcov, hidx]
      have hhead : (i :: irest).headD 0 = i := rfl
      rw [hhead]
      have hlen : GROUP_RING_CLASSES.length = 5 := rfl
      have hlenI : (GROUP_RING_CLASSES.length : Int) = 5 := rfl
      rw [hlenI, hlen]
      have hpos : (0 : Int) ≤ (i : Int) := Int.natCast_nonneg i
      rw [if_pos hpos]
      have harg : (((i : Nat) : Int) % (5 : Int)).toNat = i % 5 := by omega
      rw [harg]

/-- Witness for C6: n = 2, minterm 0 covered only by the implicant at
position 1, so the highlight class is the palette entry 1. -/
theorem primary_highlight_spec_witness :
    ((⟨0, '1', [⟨"0-", [0, 1]⟩], "ring-2 ring-sky-400/70", "00"⟩
        : KMapCell).coveringGroups = [] →
      (⟨0, '1', [⟨"0-", [0, 1]⟩], "ring-2 ring-sky-400/70", "00"⟩
        : KMapCell).groupRingClass = "") ∧
    ((⟨0, '1', [⟨"0-", [0, 1]⟩], "ring-2 ring-sky-400/70", "00"⟩
        : KMapCell).coveringGroups ≠ [] →
      (⟨0, '1', [⟨"0-", [0, 1]⟩], "ring-2 ring-sky-400/70", "00"⟩
          : KMapCell).coveringGroups.head? =
        some (([⟨"11", [3]⟩, ⟨"0-", [0, 1]⟩] : List Implicant).getD
          ((coveringIndexesSpec [⟨"11", [3]⟩, ⟨"0-", [0, 1]⟩]
            (⟨0, '1', [⟨"0-", [0, 1]⟩], "ring-2 ring-sky-400/70", "00"⟩
              : KMapCell).mintermIndex).headD 0) default) ∧
      (⟨0, '1', [⟨"0-", [0, 1]⟩], "ring-2 ring-sky-400/70", "00"⟩
          : KMapCell).groupRingClass =
        GROUP_RING_CLASSES.getD
          (((coveringIndexesSpec [⟨"11", [3]⟩, ⟨"0-", [0, 1]⟩]
            (⟨0, '1', [⟨"0-", [0, 1]⟩], "ring-2 ring-sky-400/70", "00"⟩
              : KMapCell).mintermIndex).headD 0) %
            GROUP_RING_CLASSES.length) "") :=
  primary_highlight_spec 2 [0, 1, 3] [] [⟨"11", [3]⟩, ⟨"0-", [0, 1]⟩]
    ⟨0, '1', [⟨"0-", [0, 1]⟩], "ring-2 ring-sky-400/70", "00"⟩ (by decide)

/-! ### C4: Gray sequence properties -/

theorem graySequence_eq_map (k : Nat) (hk : k ≤ 30) :
    graySequence k = (List.range (2 ^ k)).map grayCode := by
  rw [graySequence]
  by_cases hk0 : k = 0
  · subst hk0; decide
  · rw [if_neg hk0]
    have hmod : k % 32 = k := Nat.mod_eq_of_lt (by omega)
    have hlt : (2 : Nat) ^ k < 2 ^ 31 := Nat.pow_lt_pow_right (by omega) (by omega)
    have hlt32 : (2 : Nat) ^ k < 2 ^ 32 := lt_trans hlt (by norm_num)
    have hr : (1 <<< (k % 32)) % 2 ^ 32 = 2 ^ k := by
      rw [hmod, Nat.one_shiftLeft, Nat.mod_eq_of_lt hlt32]
    have hshl : jsOneShl k = ((2 ^ k : Nat) : Int) := by
      rw [jsOneShl, hr, if_pos hlt]
    rw [hshl, Int.toNat_natCast]

theorem grayCode_testBit (i j : Nat) :
    (grayCode i).testBit j = ((i.testBit j).xor (i.testBit (j + 1))) := by
  simp [grayCode, Nat.testBit_xor, Nat.testBit_shiftRight, Nat.add_comm]

theorem grayCode_lt {i k : Nat} (h : i < 2 ^ k) : grayCode i < 2 ^ k := by
  have h2 : i >>> 1 < 2 ^ k := by
    rw [Nat.shiftRight_one]
    exact lt_of_le_of_lt (Nat.div_le_self i 2) h
  exact Nat.xor_lt_two_pow h h2

theorem grayCode_injective : Function.Injective grayCode := by
  intro a b hab
  have hbits : ∀ j, (grayCode a).testBit j = (grayCode b).testBit j := by
    intro j; rw [hab]
  have aux : ∀ fuel j, a + b ≤ j + fuel → a.testBit j = b.testBit j := by
    intro fuel
    induction fuel with
    | zero =>
      intro j hj
      have ha : a < 2 ^ j :=
        lt_of_lt_of_le (Nat.lt_two_pow a) (Nat.pow_le_pow_right (by omega) (by omega))
      have hb : b < 2 ^ j :=
        lt_of_lt_of_le (Nat.lt_two_pow b) (Nat.pow_le_pow_right (by omega) (by omega))
      rw [Nat.testBit_lt_two_pow ha, Nat.testBit_lt_two_pow hb]
    | succ fuel ih =>
      intro j hj
      have e1 : a.testBit (j + 1) = b.testBit (j + 1) := ih (j + 1) (by omega)
      have e0 := hbits j
      rw [grayCode_testBit, grayCode_testBit, e1] at e0
      cases hx : a.testBit j <;> cases hy : b.testBit j <;>
        cases hz : b.testBit (j + 1) <;> simp_all
  exact Nat.eq_of_testBit_eq fun j => aux (a + b) j (by omega)

theorem graySequence_getD {k i : Nat} (hk : k ≤ 30) (h : i < 2 ^ k) :
    (graySequence k).getD i 0 = i ^^^ (i >>> 1) := by
  rw [graySequence_eq_map k hk]
  have hlen : i < ((List.range (2 ^ k)).map grayCode).length := by
    simpa using h
  rw [List.getD_eq_getElem _ _ hlen, List.getElem_map, List.getElem_range]
  rfl

theorem graySequence_perm (k : Nat) (hk : k ≤ 30) :
    (graySequence k).Perm (List.range (2 ^ k)) := by
  rw [graySequence_eq_map k hk]
  have hnd : ((List.range (2 ^ k)).map grayCode).Nodup :=
    (List.nodup_range _).map grayCode_injective
  have hsub : (List.range (2 ^ k)).map grayCode ⊆ List.range (2 ^ k) := by
    intro x hx
    rcases List.mem_map.mp hx with ⟨i, hi, rfl⟩
    exact List.mem_range.mpr (grayCode_lt (List.mem_range.mp hi))
  exact (hnd.subperm hsub).perm_of_length_le (by simp)

theorem grayCode_xor (a b : Nat) :
    grayCode a ^^^ grayCode b = grayCode (a ^^^ b) := by
  apply Nat.eq_of_testBit_eq
  intro j
  simp only [Nat.testBit_xor, grayCode_testBit]
  cases a.testBit j <;> cases b.testBit j <;>
    cases a.testBit (j + 1) <;> cases b.testBit (j + 1) <;> rfl

theorem xor_succ_eq (i : Nat) : ∃ t, i ^^^ (i + 1) = 2 ^ (t + 1) - 1 := by
  induction i using Nat.strong_induction_on with
  | _ i ih =>
    rcases Nat.even_or_odd i with ⟨j, rfl⟩ | ⟨j, rfl⟩
    · refine ⟨0, ?_⟩
      have h1 : (2:Nat) ^ (0 + 1) - 1 = 1 := by norm_num
      rw [h1]
      apply Nat.eq_of_testBit_eq
      intro b
      have d1 : (j + j) / 2 = j := by omega
      have d2 : (j + j + 1) / 2 = j := by omega
      cases b with
      | zero =>
        have e1 : (j + j) % 2 = 0 := by omega
        have e2 : (j + j + 1) % 2 = 1 := by omega
        simp [Nat.testBit_zero, Nat.testBit_xor, e1, e2]
        omega
      | succ b =>
        rw [Nat.testBit_xor, Nat.testBit_succ, Nat.testBit_succ, d1, d2,
          Nat.testBit_succ]
        norm_num [Nat.zero_testBit]
    · obtain ⟨t, ht⟩ := ih j (by omega)
      refine ⟨t + 1, ?_⟩
      have key : (2 * j + 1) ^^^ (2 * j + 1 + 1) = 2 * (j ^^^ (j + 1)) + 1 := by
        apply Nat.eq_of_testBit_eq
        intro b
        have d1 : (2 * j + 1) / 2 = j := by omega
        have d2 : (2 * j + 1 + 1) / 2 = j + 1 := by omega
        have d3 : (2 * (j ^^^ (j + 1)) + 1) / 2 = j ^^^ (j + 1) := by omega
        cases b with
        | zero =>
          have e1 : (2 * j + 1) % 2 = 1 := by omega
          have e2 : (2 * j + 1 + 1) % 2 = 0 := by omega
          have e3 : (2 * (j ^^^ (j + 1)) + 1) % 2 = 1 := by omega
          simp [Nat.testBit_zero, Nat.testBit_xor, e1, e2, e3]
          omega
        | succ b =>
          rw [Nat.testBit_xor, Nat.testBit_succ, Nat.testBit_succ, Nat.testBit_succ,
            d1, d2, d3, Nat.testBit_xor]
      rw [key, ht]
      have hp : (1:Nat) ≤ 2 ^ (t + 1) := Nat.one_le_two_pow
      have hp2 : (2:Nat) ^ (t + 1 + 1) = 2 * 2 ^ (t + 1) := by ring
      omega

theorem grayCode_two_pow_sub_one (t : Nat) :
    grayCode (2 ^ (t + 1) - 1) = 2 ^ t := by
  have hdiv : (2 ^ (t + 1) - 1) >>> 1 = 2 ^ t - 1 := by
    rw [Nat.shiftRight_one]
    have h2 : (2:Nat) ^ (t + 1) = 2 * 2 ^ t := by ring
    omega
  rw [grayCode, hdiv]
  apply Nat.eq_of_testBit_eq
  intro j
  rw [Nat.testBit_xor, Nat.testBit_two_pow_sub_one, Nat.testBit_two_pow_sub_one,
    Nat.testBit_two_pow]
  rcases lt_trichotomy j t with h | rfl | h
  · have h1 : j < t + 1 := by omega
    have h2 : t ≠ j := by omega
    simp [h, h1, h2]
  · simp
  · have h1 : ¬ (j < t + 1) := by omega
    have h2 : ¬ (j < t) := by omega
    have h3 : t ≠ j := by omega
    simp [h1, h2, h3]

/-- C4 (amended): for every k with 0 ≤ k ≤ 30 the Gray sequence has
length 2^k, its i-th element equals i xor (i >> 1) (so it is [0] for
k = 0) and it is a permutation of [0, 2^k); for 1 ≤ k ≤ 30 every
cyclically consecutive pair of elements (wraparound pair included)
differs in exactly one bit. Outside that range the claim fails: at
k = 0 the singleton wraparound pair (0, 0) differs in no bit, and at
k = 31 the JS 32-bit shift makes the length `1 << 31` negative, so the
sequence is empty rather than of length 2^31. -/
theorem graySequence_spec (k i : Nat) (hk : k ≤ 30) (hi : i < 2 ^ k) :
    (graySequence k).length = 2 ^ k ∧
    (graySequence k).getD i 0 = i ^^^ (i >>> 1) ∧
    (graySequence k).Perm (List.range (2 ^ k)) ∧
    (1 ≤ k →
      oneBitDiff ((graySequence k).getD i 0)
        ((graySequence k).getD ((i + 1) % 2 ^ k) 0)) := by
  refine ⟨?_, graySequence_getD hk hi, graySequence_perm k hk, ?_⟩
  · rw [graySequence_eq_map k hk]; simp
  · intro hk1
    unfold oneBitDiff
    by_cases hsucc : i + 1 < 2 ^ k
    · have hmod : (i + 1) % 2 ^ k = i + 1 := Nat.mod_eq_of_lt hsucc
      rw [hmod, graySequence_getD hk hi, graySequence_getD hk hsucc]
      obtain ⟨t, ht⟩ := xor_succ_eq i
      refine ⟨t, ?_⟩
      show grayCode i ^^^ grayCode (i + 1) = 2 ^ t
      rw [grayCode_xor, ht, grayCode_two_pow_sub_one]
    · have hieq : i = 2 ^ k - 1 := by omega
      have htp := Nat.two_pow_pos k
      have hmod : (i + 1) % 2 ^ k = 0 := by
        have h1 : i + 1 = 2 ^ k := by omega
        rw [h1, Nat.mod_self]
      rw [hmod, graySequence_getD hk hi, graySequence_getD hk htp]
      obtain ⟨t, hkt⟩ : ∃ t, k = t + 1 := ⟨k - 1, by omega⟩
      refine ⟨t, ?_⟩
      show grayCode i ^^^ grayCode 0 = 2 ^ t
      have hg0 : grayCode 0 = 0 := rfl
      rw [hg0, Nat.xor_zero, hieq, hkt, grayCode_two_pow_sub_one]

/-- Witness for C4 at k = 3, i = 5. -/
theorem graySequence_spec_witness :
    (graySequence 3).length = 2 ^ 3 ∧
    (graySequence 3).getD 5 0 = 5 ^^^ (5 >>> 1) ∧
    (graySequence 3).Perm (List.range (2 ^ 3)) ∧
    (1 ≤ 3 →
      oneBitDiff ((graySequence 3).getD 5 0)
        ((graySequence 3).getD ((5 + 1) % 2 ^ 3) 0)) :=
  graySequence_spec 3 5 (by decide) (by decide)

/-- C4 counterexample: the claim fails twice. At k = 31 the JS 32-bit
shift `1 << 31` is negative, the loop never runs and the sequence is
empty, so its length is 0 and not 2^31. At k = 0 the sequence is [0],
so the wraparound pair from last to first is (0, 0); its xor is 0,
which is no power of two, so that pair does not differ in exactly one
bit. -/
theorem graySequence_claim_counterexample :
    (graySequence 31 = [] ∧ (2 : Nat) ^ 31 ≠ 0) ∧
    ¬ oneBitDiff ((graySequence 0).getD 0 0)
        ((graySequence 0).getD ((0 + 1) % 2 ^ 0) 0) := by
  refine ⟨⟨by decide, by decide⟩, ?_⟩
  unfold oneBitDiff
  rintro ⟨j, hj⟩
  have h0 : ((graySequence 0).getD 0 0) ^^^
      ((graySequence 0).getD ((0 + 1) % 2 ^ 0) 0) = 0 := by decide
  rw [h0] at hj
  have := Nat.two_pow_pos j
  omega

/-! ### C9: bit-string rendering -/

theorem natToBinFuel_congr :
    ∀ m f1 f2, m ≤ f1 → m ≤ f2 → natToBinFuel f1 m = natToBinFuel f2 m := by
  intro m
  induction m using Nat.strong_induction_on with
  | _ m ih =>
    intro f1 f2 h1 h2
    match f1, f2 with
    | 0, 0 => rfl
    | 0, g2 + 1 =>
      have hm : m = 0 := by omega
      subst hm
      simp [natToBinFuel]
    | g1 + 1, 0 =>
      have hm : m = 0 := by omega
      subst hm
      simp [natToBinFuel]
    | g1 + 1, g2 + 1 =>
      by_cases hm : m = 0
      · subst hm; simp [natToBinFuel]
      · simp only [natToBinFuel, if_neg hm]
        rw [ih (m / 2) (by omega) g1 g2 (by omega) (by omega)]

theorem natToBin_zero : natToBin 0 = [] := rfl

theorem natToBin_pos (m : Nat) (hm : 0 < m) :
    natToBin m = natToBin (m / 2) ++ [if m % 2 = 1 then '1' else '0'] := by
  obtain ⟨k, rfl⟩ : ∃ k, m = k + 1 := ⟨m - 1, by omega⟩
  show natToBinFuel (k + 1) (k + 1) = _
  simp only [natToBinFuel]
  rw [if_neg (by omega : ¬ (k + 1 = 0))]
  rw [natToBinFuel_congr ((k + 1) / 2) k ((k + 1) / 2) (by omega) (by omega)]
  rfl

theorem binStringSpec_zero (w : Nat) :
    binStringSpec w 0 = List.replicate w '0' := by
  have hz : ∀ j ∈ List.range w,
      (if (0 : Nat).testBit (w - 1 - j) then '1' else '0') = '0' := by
    intro j _
    simp [Nat.zero_testBit]
  rw [binStringSpec, List.map_congr_left hz]
  simp [List.map_const', List.length_range]

theorem binStringSpec_succ (w m : Nat) :
    binStringSpec (w + 1) m =
      binStringSpec w (m / 2) ++ [if m % 2 = 1 then '1' else '0'] := by
  unfold binStringSpec
  rw [List.range_succ, List.map_append]
  congr 1
  · apply List.map_congr_left
    intro j hj
    have hjw : j < w := List.mem_range.mp hj
    have harith : w + 1 - 1 - j = (w - 1 - j) + 1 := by omega
    rw [harith, Nat.testBit_succ]
  · have harith : w + 1 - 1 - w = 0 := by omega
    simp only [List.map_cons, List.map_nil, harith, Nat.testBit_zero,
      decide_eq_true_eq]

theorem pad_natToBin (w : Nat) :
    ∀ m, m < 2 ^ w →
      List.replicate (w - (natToBin m).length) '0' ++ natToBin m
        = binStringSpec w m := by
  induction w with
  | zero =>
    intro m hm
    have h1 : (2 : Nat) ^ 0 = 1 := rfl
    have hm0 : m = 0 := by omega
    subst hm0
    rfl
  | succ w ih =>
    intro m hm
    by_cases hm0 : m = 0
    · subst hm0
      rw [natToBin_zero, binStringSpec_zero]
      simp
    · rw [natToBin_pos m (by omega), binStringSpec_succ]
      have hlen : (natToBin (m / 2) ++ [if m % 2 = 1 then '1' else '0']).length
          = (natToBin (m / 2)).length + 1 := by simp
      rw [hlen]
      have harith : w + 1 - ((natToBin (m / 2)).length + 1)
          = w - (natToBin (m / 2)).length := by omega
      rw [harith, ← List.append_assoc]
      have hdiv : m / 2 < 2 ^ w := by
        have h2 : (2 : Nat) ^ (w + 1) = 2 * 2 ^ w := by ring
        omega
      rw [ih (m / 2) hdiv]

/-- C9: for every width n ≥ 1 (the widths the component renders are
rowVars, colVars and numInputs, all at least 1) and every minterm
index m < 2^n, the rendered bit string has length exactly n and equals
the binary representation of m zero-padded to width n, most
significant bit first. -/
theorem toBitsString_spec (m width : Nat) (hw : 1 ≤ width) (hm : m < 2 ^ width) :
    (toBitsString m width).length = width ∧
    (toBitsString m width).data = binStringSpec width m := by
  have hdata : (toBitsString m width).data = binStringSpec width m := by
    by_cases hm0 : m = 0
    · subst hm0
      have hjs : jsBinString 0 = "0" := rfl
      show (padStart (jsBinString 0) width '0').data = _
      rw [hjs, binStringSpec_zero]
      show List.replicate (width - ("0" : String).data.length) '0'
          ++ ("0" : String).data = List.replicate width '0'
      have hd : ("0" : String).data = ['0'] := rfl
      rw [hd]
      obtain ⟨w, rfl⟩ : ∃ w, width = w + 1 := ⟨width - 1, by omega⟩
      simp [List.replicate_succ']
    · have hjs : jsBinString m = ⟨natToBin m⟩ := by
        rw [jsBinString, if_neg hm0]
      show (padStart (jsBinString m) width '0').data = _
      rw [hjs]
      show List.replicate (width - (natToBin m).length) '0' ++ natToBin m = _
      exact pad_natToBin width m hm
  refine ⟨?_, hdata⟩
  show (toBitsString m width).data.length = width
  rw [hdata]
  simp [binStringSpec]

/-- Witness for C9 at m = 5, width = 4. -/
theorem toBitsString_spec_witness :
    (toBitsString 5 4).length = 4 ∧ (toBitsString 5 4).data = binStringSpec 4 5 :=
  toBitsString_spec 5 4 (by decide) (by decide)

/-! ### C5: no structural validation of implicants -/

theorem mem_graySequence_lt {k x : Nat} (hk : k ≤ 30) (hx : x ∈ graySequence k) :
    x < 2 ^ k := by
  rw [graySequence_eq_map k hk] at hx
  rcases List.mem_map.mp hx with ⟨i, hi, rfl⟩
  exact grayCode_lt (List.mem_range.mp hi)

/-- C5 counterexample: with n = 2 and an implicant whose covered list
contains 99 (outside [0, 4)), the component raises no error: the grid
is produced as usual, and the out-of-range entry matches no cell, so
every cell covering list is empty — the entry is silently ignored. -/
theorem no_structural_error_counterexample :
    KMapGrid 2 [0] [] [⟨"00", [99]⟩] = some (kmapCells 2 [0] [] [⟨"00", [99]⟩]) ∧
    ((kmapCells 2 [0] [] [⟨"00", [99]⟩]).map KMapCell.coveringGroups)
      = [[], [], [], []] := by
  decide

/-- C5 (amended): the component performs no structural validation of
implicants: for every numInputs in [2,6] and arbitrary implicant input
(covered entries outside [0, 2^n) or patterns of the wrong length
included) the grid is computed without error; every cell minterm index
lies in [0, 2^n) and each covering list arises from membership
filtering alone, so an out-of-range covered entry matches no cell and
is silently ignored rather than surfaced as an error. -/
theorem no_structural_validation (n : Nat) (ms dcs : List Nat)
    (imps : List Implicant) (cell : KMapCell) (h2 : 2 ≤ n) (h6 : n ≤ 6)
    (hcell : cell ∈ kmapCells n ms dcs imps) :
    KMapGrid n ms dcs imps = some (kmapCells n ms dcs imps) ∧
    cell.mintermIndex < 2 ^ n ∧
    cell.coveringGroups =
      imps.filter (fun imp => cell.mintermIndex ∈ imp.covered) := by
  refine ⟨?_, ?_, ?_⟩
  · rw [KMapGrid, if_neg (by omega)]
  · rcases mem_kmapCells.mp hcell with ⟨rg, hrg, cg, hcg, rfl⟩
    rw [resolveCell_mintermIndex]
    have hkr : rowVarsOf n ≤ 30 := by unfold rowVarsOf; omega
    have hkc : colVarsOf n ≤ 30 := by unfold colVarsOf rowVarsOf; omega
    have hr := mem_graySequence_lt hkr hrg
    have hc := mem_graySequence_lt hkc hcg
    have hsum : rowVarsOf n + colVarsOf n = n := by
      unfold rowVarsOf colVarsOf rowVarsOf
      omega
    have hshift : rg <<< colVarsOf n < 2 ^ n := by
      rw [Nat.shiftLeft_eq]
      have h1 : rg * 2 ^ colVarsOf n < 2 ^ rowVarsOf n * 2 ^ colVarsOf n :=
        mul_lt_mul_of_pos_right hr (Nat.two_pow_pos _)
      rwa [← pow_add, hsum] at h1
    have hcg2 : cg < 2 ^ n := by
      have hle : (2 : Nat) ^ colVarsOf n ≤ 2 ^ n :=
        Nat.pow_le_pow_right (by omega) (by omega)
      omega
    exact Nat.or_lt_two_pow hshift hcg2
  · rcases mem_kmapCells.mp hcell with ⟨rg, _, cg, _, rfl⟩
    rw [resolveCell_coveringGroups, resolveCell_mintermIndex]
    rfl

/-- Witness for the amended C5 at n = 2 with covered entry 99, at the
first cell of the grid. -/
theorem no_structural_validation_witness :
    KMapGrid 2 [0] [] [⟨"00", [99]⟩] = some (kmapCells 2 [0] [] [⟨"00", [99]⟩]) ∧
    (⟨0, '1', [], "", "00"⟩ : KMapCell).mintermIndex < 2 ^ 2 ∧
    (⟨0, '1', [], "", "00"⟩ : KMapCell).coveringGroups =
      ([⟨"00", [99]⟩] : List Implicant).filter
        (fun imp => (⟨0, '1', [], "", "00"⟩ : KMapCell).mintermIndex ∈ imp.covered) :=
  no_structural_validation 2 [0] [] [⟨"00", [99]⟩] ⟨0, '1', [], "", "00"⟩
    (by decide) (by decide) (by decide)
